import Mathlib

/-!
Verification development for the lproc prefetching and streaming engine
(src/lproc/utils.py).  The definitions below are shallow embeddings of the
Python code: pure functions become Lean functions, the two concurrent
protocols (par_iter worker pool, chunk_load producer/consumer ring) become
explicit transition systems, machine integers become Nat/Int, and fallible
code returns Option/Except.
-/

/-! ## Subset (src/lproc/utils.py lines 14-58)

`Subset` stores a base sequence and an index sequence.  Sequences are
embedded as Lists, indices as Nat.  `is_int_item` comes from
lproc/common.py which is not under src/; it is modelled from the spec:
it tests whether an item is an integer (as opposed to a slice).  Our items
are natural numbers, so the integer branch of `__getitem__`
(`self.sequence[self.indexes[item]]`) is the branch embedded here. -/

structure Subset (α : Type) where
  sequence : List α
  indexes : List Nat
deriving Repr

/-- Constructor branch of `Subset.__init__` where the base is a plain
sequence: stores `sequence` and `indexes` unchanged. -/
def subsetOfBase (sequence : List α) (indexes : List Nat) : Subset α :=
  ⟨sequence, indexes⟩

/-- Nested-subset branch of `Subset.__init__` (lines 17-22): for a list of
integer indexes the fallback comprehension
`indexes = [sequence.indexes[i] for i in indexes]` runs, then
`sequence = sequence.sequence`.  Out-of-range indexing raises in Python,
hence the Option. -/
def subsetOfSubset (s : Subset α) (indexes : List Nat) : Option (Subset α) :=
  (indexes.mapM (fun i => s.indexes.get? i)).map (fun ix => ⟨s.sequence, ix⟩)

/-- `Subset.__getitem__` for an integer item (line 42):
`self.sequence[self.indexes[item]]`. -/
def Subset.getItem (s : Subset α) (item : Nat) : Option α :=
  (s.indexes.get? item).bind (fun i => s.sequence.get? i)

/-! ## CachedSequence (src/lproc/utils.py lines 61-93)

The `OrderedDict` cache is embedded as an association list in insertion
order, newest entry last.  `OrderedDict.popitem()` (no argument, line 76)
pops the most recently inserted entry, i.e. the last one. -/

structure CachedSequence (α : Type) where
  arr : Nat → α
  cache : List (Nat × α)
  cache_size : Nat

/-- `add_cache` (line 84): wraps `arr` with an empty cache. -/
def add_cache (arr : Nat → α) (cache_size : Nat) : CachedSequence α :=
  ⟨arr, [], cache_size⟩

/-- `CachedSequence.__getitem__` (lines 70-78).  Returns the value and the
updated cache state.  On a hit the cache is unchanged; on a miss, if
`len(self.cache) >= self.cache_size` one entry (the most recently inserted)
is popped, then the new entry is appended. -/
def CachedSequence.getitem (c : CachedSequence α) (item : Nat) :
    α × CachedSequence α :=
  match c.cache.find? (fun p => p.1 == item) with
  | some p => (p.2, c)
  | none =>
    let value := c.arr item
    let cache' := if c.cache_size ≤ c.cache.length then c.cache.dropLast else c.cache
    (value, { c with cache := cache' ++ [(item, value)] })

/-- A sequence of `__getitem__` calls, threading the cache state. -/
def cacheRun (c : CachedSequence α) (calls : List Nat) : CachedSequence α :=
  calls.foldl (fun c i => (c.getitem i).2) c

/-! ## par_iter main loop reordering (src/lproc/utils.py lines 163-191)

Workers compute `v = sequence[i]` and post `(i, v)` on `q_out` in an order
that depends on scheduling.  The main loop stores results in the
`unordered_results` dict and yields consecutive indices starting at
`n_done`.  The dict is embedded as an association list with unique keys;
`unordered_results.pop(n_done)` removes the unique entry with that key.
An arbitrary completion order is an arbitrary permutation of the index
list, and the value arriving for index `i` is `get i` (line 115). -/

structure ParLoopState (α : Type) where
  results : List (Nat × α)
  n_done : Nat
  out : List α

/-- The inner `while n_done in unordered_results.keys()` loop
(lines 189-191): repeatedly pop index `n_done`, yield its value, advance.
Fueled recursion; fuel at least `results.length` reaches the fixpoint. -/
def drainLoop (get : Nat → α) : Nat → ParLoopState α → ParLoopState α
  | 0, s => s
  | fuel + 1, s =>
    match s.results.find? (fun p => p.1 == s.n_done) with
    | some p =>
      drainLoop get fuel
        ⟨s.results.filter (fun q => q.1 != s.n_done), s.n_done + 1, s.out ++ [p.2]⟩
    | none => s

/-- One main-loop step on receiving result `(idx, get idx)` from `q_out`
(lines 186-191): store it, then drain consecutive indices. -/
def parStep (get : Nat → α) (s : ParLoopState α) (idx : Nat) : ParLoopState α :=
  let res := s.results ++ [(idx, get idx)]
  drainLoop get res.length ⟨res, s.n_done, s.out⟩

/-- The whole consumption of `q_out` for a given arrival order. -/
def parIterRun (get : Nat → α) (arrivals : List Nat) : ParLoopState α :=
  arrivals.foldl (parStep get) ⟨[], 0, []⟩

/-- Loop invariant of the reordering buffer after processing the arrivals
in `seen`: values are authentic, keys are unique, the buffer holds exactly
the arrived-but-not-yet-yielded indices, every yielded index has arrived,
and the output is the ordered prefix. -/
def ParPre (get : Nat → α) (seen : List Nat) (s : ParLoopState α) : Prop :=
  (∀ p ∈ s.results, p.2 = get p.1) ∧
  (s.results.map Prod.fst).Nodup ∧
  (∀ i, (∃ v, (i, v) ∈ s.results) ↔ (i ∈ seen ∧ s.n_done ≤ i)) ∧
  (∀ i, i < s.n_done → i ∈ seen) ∧
  s.out = (List.range s.n_done).map get

/-- `ParPre` plus the inner drain loop having reached its fixpoint:
`n_done` is not in the buffer. -/
def ParInv (get : Nat → α) (seen : List Nat) (s : ParLoopState α) : Prop :=
  ParPre get seen s ∧ s.results.find? (fun p => p.1 == s.n_done) = none

/-! ## par_iter failure messages (src/lproc/utils.py lines 114-127, 173-183)

`ParIterWorker.do` catches any exception at index `i`; if `(ev, tb)`
pickles it posts `(None, (i, ev, tb))`, otherwise `(None, (i, None, None))`.
The main loop turns this into an `AccessException` whose message is
`"Accessing index " + str(i) + " failed"`, chained to the cause exactly
when one was transported.  The transported cause is abstracted to `Unit`:
only its presence matters here. -/

def accessErrorMsg (i : Nat) : String :=
  "Accessing index " ++ toString i ++ " failed"

/-- The payload `(i, ev, tb)` of a worker failure message, lines 118-124:
the cause is present exactly when the exception and traceback pickled. -/
def workerFailMsg (i : Nat) (picklable : Bool) : Nat × Option Unit :=
  (i, if picklable then some () else none)

structure RaisedAccessError where
  msg : String
  chained : Bool
deriving DecidableEq

/-- Lines 175-183: the main loop decodes a failure payload and raises. -/
def parIterRaise (m : Nat × Option Unit) : RaisedAccessError :=
  ⟨accessErrorMsg m.1, m.2.isSome⟩

/-! ## par_iter shutdown protocol (src/lproc/utils.py lines 100-131, 193-202)

The cleanup path (`finally`, lines 196-202) drains `q_out`, posts `nprocs`
sentinels on `q_in`, and joins every worker; workers (lines 108-127) loop
taking one message from `q_in`, exiting on the sentinel and otherwise
computing and posting exactly one result on `q_out`.  Both queues are
bounded at `2 * nprocs`.  This is embedded as a small-step transition
system over the shared state; each constructor of `CStep` is one atomic
queue or process operation, and a blocked operation is simply not enabled. -/

inductive WMsg where
  | work (i : Nat)
  | sentinel
deriving DecidableEq

inductive WState where
  | waiting
  | busy (i : Nat)
  | exited
deriving DecidableEq

inductive MPhase where
  | drain
  | sendSent
  | joining
  | done
deriving DecidableEq

structure CleanupState where
  qin : List WMsg
  qout : List Nat
  workers : List WState
  toSend : Nat
  joinIdx : Nat
  mphase : MPhase
deriving DecidableEq

def isWork : WMsg → Bool
  | .work _ => true
  | .sentinel => false

def isBusy : WState → Bool
  | .busy _ => true
  | _ => false

def isExited : WState → Bool
  | .exited => true
  | _ => false

def nprocs (s : CleanupState) : Nat := s.workers.length

def qinWork (s : CleanupState) : Nat := s.qin.countP isWork

def qinSent (s : CleanupState) : Nat := s.qin.countP (fun m => !isWork m)

def busyCount (s : CleanupState) : Nat := s.workers.countP isBusy

def exitedCount (s : CleanupState) : Nat := s.workers.countP isExited

def liveCount (s : CleanupState) : Nat := s.workers.countP (fun w => !isExited w)

/-- One atomic step of the shutdown protocol.  Main-thread steps follow
lines 196-202 of the source (drain `q_out` while nonempty, then put
`nprocs` sentinels, then join each worker in order); worker steps follow
lines 108-127 (take one message from the head of `q_in`; a sentinel means
exit, a work item means compute then post one result when `q_out` has
room). -/
inductive CStep : CleanupState → CleanupState → Prop where
  | drainGet (s : CleanupState) (r : Nat) (rest : List Nat) :
      s.mphase = .drain → s.qout = r :: rest →
      CStep s { s with qout := rest }
  | drainDone (s : CleanupState) :
      s.mphase = .drain → s.qout = [] →
      CStep s { s with mphase := .sendSent }
  | send (s : CleanupState) :
      s.mphase = .sendSent → 0 < s.toSend → s.qin.length < 2 * nprocs s →
      CStep s { s with qin := s.qin ++ [.sentinel], toSend := s.toSend - 1 }
  | sendDone (s : CleanupState) :
      s.mphase = .sendSent → s.toSend = 0 →
      CStep s { s with mphase := .joining }
  | joinStep (s : CleanupState) :
      s.mphase = .joining → s.workers.get? s.joinIdx = some .exited →
      CStep s { s with joinIdx := s.joinIdx + 1,
                       mphase := if s.joinIdx + 1 = nprocs s then .done else .joining }
  | takeWork (s : CleanupState) (w i : Nat) (rest : List WMsg) :
      s.workers.get? w = some .waiting → s.qin = .work i :: rest →
      CStep s { s with qin := rest, workers := s.workers.set w (.busy i) }
  | takeSent (s : CleanupState) (w : Nat) (rest : List WMsg) :
      s.workers.get? w = some .waiting → s.qin = .sentinel :: rest →
      CStep s { s with qin := rest, workers := s.workers.set w .exited }
  | put (s : CleanupState) (w i : Nat) :
      s.workers.get? w = some (.busy i) → s.qout.length < 2 * nprocs s →
      CStep s { s with qout := s.qout ++ [i], workers := s.workers.set w .waiting }

/-- The state of the main thread and queues when the cleanup path is
entered: still draining, all sentinels left to send, nobody joined yet,
at most `nprocs` work items pending on `q_in` (the injection loop only
pushes while the observed size is below `nprocs`), no sentinel on `q_in`
yet and no worker exited yet (workers only exit on a sentinel). -/
def CleanupInit (s : CleanupState) : Prop :=
  1 ≤ nprocs s ∧ s.mphase = .drain ∧ s.toSend = nprocs s ∧ s.joinIdx = 0 ∧
    qinWork s ≤ nprocs s ∧ qinSent s = 0 ∧ exitedCount s = 0

/-- Invariant of the shutdown protocol: at least one worker; at most
`nprocs` work items remain on `q_in`; sentinel accounting (each of the
`nprocs` sentinels is yet to be sent, in `q_in`, or already consumed by an
exited worker); once draining has finished, the pending messages can never
exceed the `2 * nprocs` capacity of `q_out`; every worker below `joinIdx`
has exited; and the phase bookkeeping of the join loop. -/
def CInv (s : CleanupState) : Prop :=
  1 ≤ nprocs s ∧
  qinWork s ≤ nprocs s ∧
  qinSent s + exitedCount s + s.toSend = nprocs s ∧
  (s.mphase ≠ .drain → s.qout.length + busyCount s + qinWork s ≤ 2 * nprocs s) ∧
  (∀ i, i < s.joinIdx → s.workers.get? i = some .exited) ∧
  (s.mphase = .joining → s.joinIdx < nprocs s) ∧
  (s.mphase = .done → s.joinIdx = nprocs s) ∧
  ((s.mphase = .joining ∨ s.mphase = .done) → s.toSend = 0) ∧
  ((s.mphase = .drain ∨ s.mphase = .sendSent) → s.joinIdx = 0)

/-- A terminal state of the cleanup: the main thread has joined everyone
and every worker process has exited. -/
def CFinal (s : CleanupState) : Prop :=
  s.mphase = .done ∧ ∀ w ∈ s.workers, w = .exited

def phaseCost : MPhase → Nat
  | .drain => 3
  | .sendSent => 2
  | .joining => 1
  | .done => 0

/-- Termination measure for the shutdown protocol: every enabled step
strictly decreases it. -/
def cMeasure (s : CleanupState) : Nat :=
  3 * qinWork s + 2 * busyCount s + s.qout.length + qinSent s +
    liveCount s + 2 * s.toSend + (nprocs s - s.joinIdx) + phaseCost s.mphase

/-! ## par_iter worker count (src/lproc/utils.py lines 154-161)

`if nprocs <= 0: nprocs += multiprocessing.cpu_count()`; then
`proc = [ParIterWorker(...) for _ in range(nprocs)]`, so the number of
processes actually spawned is `max nprocs 0`. -/

def parIterWorkerCount (cpu_count nprocs : Int) : Int :=
  if nprocs ≤ 0 then nprocs + cpu_count else nprocs

def parIterSpawned (cpu_count nprocs : Int) : Nat :=
  (parIterWorkerCount cpu_count nprocs).toNat

/-! ## chunk_load synchronous prelude (src/lproc/utils.py lines 267-275)

What runs in the caller's frame before any data flows: the assert on
lengths, `buffer_size = min([len(b) - len(b) % chunk_size for b in
buffers])` (Python `%` and `//` are floor operations, `Int.fmod` and
`Int.fdiv`; `% 0` raises ZeroDivisionError, `min([])` raises ValueError),
`n_chunks = buffer_size // chunk_size`, and `Semaphore(n_chunks)` which
raises ValueError when `n_chunks < 0`. -/

inductive SyncErr where
  | assertLenMismatch
  | minEmpty
  | zeroDiv
  | semValue
deriving DecidableEq

def listMinInt : List Int → Int
  | [] => 0
  | x :: xs => xs.foldl min x

def chunkLoadSyncCheck (nsources : Nat) (bufLens : List Nat) (chunk_size : Int) :
    Except SyncErr Int :=
  if nsources ≠ bufLens.length then .error .assertLenMismatch
  else if bufLens = [] then .error .minEmpty
  else if chunk_size = 0 then .error .zeroDiv
  else
    let buffer_size :=
      listMinInt (bufLens.map (fun (L : Nat) => (L : Int) - Int.fmod (L : Int) chunk_size))
    let n_chunks := Int.fdiv buffer_size chunk_size
    if n_chunks < 0 then .error .semValue else .ok n_chunks

/-! ## chunk_load padding write (src/lproc/utils.py lines 292-295)

With `pad_last` and a final remainder `v > 0` the code runs
`b[offset + v:] = 0` on each buffer: every position from `offset + v` to
the end of the buffer is overwritten with 0.  Buffers hold the K aligned
element tuples in lockstep, so they are embedded as one logical buffer of
elements. -/

/-- `b[k:] = 0`: zero from position `k` to the end of the buffer. -/
def padBlank (b : List Int) (k : Nat) : List Int :=
  b.take k ++ List.replicate (b.length - k) 0

/-- `b[offset:offset + len]`: the view yielded for one chunk. -/
def chunkView (b : List Int) (offset len : Nat) : List Int :=
  (b.drop offset).take len

/-! ## chunk_load producer/consumer machine
(src/lproc/utils.py lines 205-241 and 282-323)

The producer thread (`buffer_loader_worker`) and the consuming generator
(`chunk_load`) share a ring inside the buffer, two semaphores, the end
event and the `end_data` queue.  The K source iterables are zipped
element-wise and the K buffers are written in lockstep, so sources are
embedded as one list of element tuples (`items`) and buffers as one
logical buffer.  `end_data` values keep their Python shapes: an int
remainder, a tuple, a bare exception object, or None.

On a source failure (lines 229-239) the code calls `end_data.put(ev, tb)`:
the second positional argument of `queue.Queue.put` is `block`, so the
value actually enqueued is the bare exception `ev`, not the tuple
`(ev, tb)`; when pickling fails it enqueues None. -/

inductive QueueVal where
  | vint (r : Nat)
  | vtuple
  | vexc
  | vnone
deriving DecidableEq

/-- Lines 231-237: the value enqueued on `end_data` when the source
raises.  When `(ev, tb)` pickles, `end_data.put(ev, tb)` enqueues the bare
exception (`tb` is consumed as the `block` argument); otherwise
`end_data.put(None)`. -/
def failRecord (picklable : Bool) : QueueVal :=
  if picklable then .vexc else .vnone

inductive StopKind where
  | exhaust
  | raiseExc (picklable : Bool)
deriving DecidableEq

structure ChunkParams where
  items : List Int
  stop : StopKind
  cs : Nat
  bufLen : Nat
  pad_last : Bool

/-- `buffer_size = len(b) - len(b) % chunk_size` (lines 208 and 270). -/
def ChunkParams.B (P : ChunkParams) : Nat := P.bufLen - P.bufLen % P.cs

/-- `n_chunks = buffer_size // chunk_size` (line 271). -/
def ChunkParams.n_chunks (P : ChunkParams) : Nat := P.B / P.cs

inductive PPhase where
  | running
  | needw
  | ended
  | exited
deriving DecidableEq

inductive CPhase where
  | acquiring
  | checking
  | cleanup1
  | cleanup2
  | joining
  | done
deriving DecidableEq

inductive RaiseKind where
  | chained
  | unchained
deriving DecidableEq

structure ChunkState where
  rsem : Nat
  wsem : Nat
  end_evt : Bool
  end_data : List QueueVal
  endTrace : List QueueVal
  buf : List Int
  pIdx : Nat
  offP : Nat
  pphase : PPhase
  offC : Nat
  cphase : CPhase
  yields : List (List Int)
  raised : Option RaiseKind
deriving DecidableEq

/-- Initial state: semaphores `rsem = 0` and `wsem = n_chunks` (line 273),
minus the producer's initial non-blocking `wsem.acquire` (line 212). -/
def chunkInit (P : ChunkParams) (b0 : List Int) : ChunkState :=
  { rsem := 0, wsem := P.n_chunks - 1, end_evt := false, end_data := [],
    endTrace := [], buf := b0, pIdx := 0, offP := 0, pphase := .running,
    offC := 0, cphase := .acquiring, yields := [], raised := none }

def putEnd (s : ChunkState) (v : QueueVal) : ChunkState :=
  { s with end_data := s.end_data ++ [v], endTrace := s.endTrace ++ [v] }

/-- Lines 286-309: what the consumer does with a popped `end_data` value.
`isinstance(v, int)` with `pad_last` pads with `b[offset + v:] = 0` and
yields a full view; without `pad_last` it yields the partial view; a tuple
would raise chained (line 302-306); anything else raises without a cause
(lines 307-309). -/
def consumeEnd (P : ChunkParams) (s : ChunkState) (v : QueueVal) : ChunkState :=
  match v with
  | .vint r =>
    if P.pad_last then
      if r = 0 then { s with cphase := .cleanup1 }
      else
        let b := padBlank s.buf (s.offC + r)
        { s with buf := b, yields := s.yields ++ [chunkView b s.offC P.cs],
                 cphase := .cleanup1 }
    else
      if r = 0 then { s with cphase := .cleanup1 }
      else { s with yields := s.yields ++ [chunkView s.buf s.offC r],
                    cphase := .cleanup1 }
  | .vtuple => { s with raised := some .chained, cphase := .cleanup1 }
  | .vexc => { s with raised := some .unchained, cphase := .cleanup1 }
  | .vnone => { s with raised := some .unchained, cphase := .cleanup1 }

inductive CLabel where
  | pWrite
  | pAcqW
  | pStop
  | pFail
  | pGuardExit
  | pExitPut
  | cAcqR
  | cCheck
  | cClean1
  | cClean2
  | cJoin
deriving DecidableEq

/-- One atomic step of the chunk_load system, labelled by which thread
moves and what it does.  `none` means the step is not enabled (the thread
is blocked or not at that point).  Producer labels follow
`buffer_loader_worker` (lines 208-241), consumer labels follow the
generator loop and its `finally` cleanup (lines 282-323). -/
def chunkStep (P : ChunkParams) (l : CLabel) (s : ChunkState) : Option ChunkState :=
  match l with
  | .pWrite =>
    match s.pphase, s.end_evt, P.items.get? s.pIdx with
    | .running, false, some x =>
      if (s.offP + 1) % P.cs = 0 then
        some { s with buf := s.buf.set s.offP x, pIdx := s.pIdx + 1,
                      offP := (s.offP + 1) % P.B, rsem := s.rsem + 1,
                      pphase := .needw }
      else
        some { s with buf := s.buf.set s.offP x, pIdx := s.pIdx + 1,
                      offP := s.offP + 1 }
    | _, _, _ => none
  | .pAcqW =>
    if s.pphase = .needw ∧ 0 < s.wsem then
      some { s with wsem := s.wsem - 1, pphase := .running }
    else none
  | .pStop =>
    match s.pphase, s.end_evt, P.stop with
    | .running, false, .exhaust =>
      if s.pIdx = P.items.length then
        some (putEnd { s with end_evt := true, rsem := s.rsem + 1, pphase := .ended }
          (.vint (s.offP % P.cs)))
      else none
    | _, _, _ => none
  | .pFail =>
    match s.pphase, s.end_evt, P.stop with
    | .running, false, .raiseExc p =>
      if s.pIdx = P.items.length then
        some (putEnd { s with end_evt := true, rsem := s.rsem + 1, pphase := .ended }
          (failRecord p))
      else none
    | _, _, _ => none
  | .pGuardExit =>
    match s.pphase, s.end_evt with
    | .running, true => some { s with pphase := .ended }
    | _, _ => none
  | .pExitPut =>
    if s.pphase = .ended then some (putEnd { s with pphase := .exited } .vnone)
    else none
  | .cAcqR =>
    if s.cphase = .acquiring ∧ 0 < s.rsem then
      some { s with rsem := s.rsem - 1, cphase := .checking }
    else none
  | .cCheck =>
    if s.cphase = .checking then
      if s.end_evt then
        match s.end_data with
        | v :: rest => some (consumeEnd P { s with end_data := rest } v)
        | [] => none
      else
        some { s with yields := s.yields ++ [chunkView s.buf s.offC P.cs],
                      offC := (s.offC + P.cs) % P.B, wsem := s.wsem + 1,
                      cphase := .acquiring }
    else none
  | .cClean1 =>
    if s.cphase = .cleanup1 then
      some { s with end_evt := true, wsem := s.wsem + 1, cphase := .cleanup2 }
    else none
  | .cClean2 =>
    if s.cphase = .cleanup2 then
      match s.end_data with
      | _ :: rest => some { s with end_data := rest, cphase := .joining }
      | [] => none
    else none
  | .cJoin =>
    if s.cphase = .joining ∧ s.pphase = .exited then
      some { s with cphase := .done }
    else none

/-- Run the machine under an explicit interleaving (list of labels). -/
def chunkRun (P : ChunkParams) (b0 : List Int) (ls : List CLabel) : Option ChunkState :=
  ls.foldlM (fun s l => chunkStep P l s) (chunkInit P b0)

/-- Total number of elements across all yielded views. -/
def totalYield (s : ChunkState) : Nat :=
  (s.yields.map List.length).sum

/-! ## Concrete runs used by the counterexamples -/

/-- `chunk_load(sources=[range(8)], buffers=[buffer of length 8],
chunk_size=4, pad_last=False)`: 8 source items, ring of 2 chunks. -/
def raceParams : ChunkParams := ⟨[0, 1, 2, 3, 4, 5, 6, 7], .exhaust, 4, 8, false⟩

/-- An interleaving in which the producer finishes writing both chunks and
reaches StopIteration before the consumer checks `end_evt` for the second
time: the consumer then takes the end-of-stream branch and never yields the
second chunk. -/
def raceSched : List CLabel :=
  [.pWrite, .pWrite, .pWrite, .pWrite, .pAcqW, .pWrite, .pWrite, .pWrite,
   .pWrite, .cAcqR, .cCheck, .pAcqW, .pStop, .pExitPut, .cAcqR, .cCheck,
   .cClean1, .cClean2, .cJoin]

/-- `chunk_load` over an empty source with `chunk_size=4` and a length-8
buffer: the producer hits StopIteration at once. -/
def emptyParams : ChunkParams := ⟨[], .exhaust, 4, 8, false⟩

/-- A source whose iterator raises a picklable exception immediately. -/
def failParams : ChunkParams := ⟨[], .raiseExc true, 4, 8, false⟩

/-- Producer finishes, then the consumer observes the failure and cleans
up. -/
def failSched : List CLabel :=
  [.pFail, .pExitPut, .cAcqR, .cCheck, .cClean1, .cClean2, .cJoin]

/-- Concrete post-error par_iter state for the shutdown witness: one
worker, both queues empty, one sentinel to send. -/
def cleanupExampleState : CleanupState :=
  { qin := [], qout := [], workers := [.waiting], toSend := 1, joinIdx := 0,
    mphase := .drain }

/-- Shape of the producer's `end_data` put history per producer phase:
nothing while the loop runs, at most one end-of-stream record once the
loop has been left, and that record followed by exactly one final None
once the producer has exited. -/
def EndTraceInv (s : ChunkState) : Prop :=
  (s.pphase = .running ∨ s.pphase = .needw → s.endTrace = []) ∧
  (s.pphase = .ended → s.endTrace = [] ∨ ∃ v, s.endTrace = [v]) ∧
  (s.pphase = .exited →
    s.endTrace = [.vnone] ∨ ∃ v, s.endTrace = [v, .vnone])

/-- Final state of the run of `emptyParams` under the producer-only
schedule: the producer has put its StopIteration remainder and the final
None and exited. -/
def emptyRunFinal : ChunkState :=
  { rsem := 1, wsem := 1, end_evt := true, end_data := [.vint 0, .vnone],
    endTrace := [.vint 0, .vnone], buf := List.replicate 8 0, pIdx := 0,
    offP := 0, pphase := .exited, offC := 0, cphase := .acquiring,
    yields := [], raised := none }

/-! # Theorems -/

/-! ## Helper lemmas -/

lemma mapM_get?_spec (f : Nat → Option β) :
    ∀ l : List Nat, (∀ k ∈ l, (f k).isSome) →
      ∃ r : List β, l.mapM f = some r ∧
        ∀ j a, l.get? j = some a → r.get? j = f a := by
  intro l
  induction l with
  | nil =>
    intro _
    exact ⟨[], rfl, by intro j a h; simp at h⟩
  | cons x xs ih =>
    intro h
    have hx : (f x).isSome := h x (by simp)
    obtain ⟨y, hy⟩ := Option.isSome_iff_exists.mp hx
    obtain ⟨r, hr, hget⟩ := ih (fun k hk => h k (by simp [hk]))
    refine ⟨y :: r, ?_, ?_⟩
    · rw [List.mapM_cons, hy, hr]; rfl
    · intro j a hj
      cases j with
      | zero =>
        rw [List.get?_cons_zero] at hj
        have hxa := Option.some.inj hj
        subst hxa
        rw [List.get?_cons_zero, hy]
      | succ j =>
        rw [List.get?_cons_succ] at hj
        rw [List.get?_cons_succ]
        exact hget j a hj

/-! ## Claim C9: nested reindexing composes -/

/-- Claim C9: nested reindexing composes.  For a base sequence `s`, integer
index sequences `i1` and `i2` and a valid position `j` (with every entry of
`i2` a valid index into `i1`), building `subset(subset(s, i1), i2)` yields
a `Subset` whose base is `s` itself (one level of indirection) and whose
element at `j` is `s[i1[i2[j]]]`. -/
theorem subset_subset_composes {α : Type} (s : List α) (i1 i2 : List Nat)
    (j a b : Nat) (hall : ∀ k ∈ i2, k < i1.length)
    (hj : i2.get? j = some a) (ha : i1.get? a = some b) :
    ∃ t, subsetOfSubset (subsetOfBase s i1) i2 = some t ∧
      t.sequence = s ∧ t.getItem j = s.get? b := by
  have hsome : ∀ k ∈ i2, ((subsetOfBase s i1).indexes.get? k).isSome := by
    intro k hk
    have hk1 : k < i1.length := hall k hk
    simp [subsetOfBase, List.get?_eq_getElem?, List.getElem?_eq_getElem hk1]
  obtain ⟨r, hr, hget⟩ :=
    mapM_get?_spec (fun i => (subsetOfBase s i1).indexes.get? i) i2 hsome
  refine ⟨⟨s, r⟩, ?_, ?_, ?_⟩
  · unfold subsetOfSubset
    rw [hr]
    rfl
  · rfl
  · have hrj : r.get? j = i1.get? a := hget j a hj
    unfold Subset.getItem
    simp only [hrj, ha]
    rfl

/-- Witness for C9 at `s = [10, 20, 30]`, `i1 = [2, 0, 1]`, `i2 = [1, 2]`,
`j = 0` (so `i2[0] = 1`, `i1[1] = 0`, `s[0] = 10`). -/
theorem subset_subset_composes_witness :
    (∀ k ∈ [1, 2], k < [2, 0, 1].length) ∧
    ([1, 2].get? 0 = some 1) ∧ ([2, 0, 1].get? 1 = some 0) ∧
    ∃ t, subsetOfSubset (subsetOfBase ([10, 20, 30] : List Int) [2, 0, 1]) [1, 2] = some t ∧
      t.sequence = [10, 20, 30] ∧ t.getItem 0 = ([10, 20, 30] : List Int).get? 0 :=
  ⟨by decide, by decide, by decide,
    subset_subset_composes [10, 20, 30] [2, 0, 1] [1, 2] 0 1 0
      (by decide) (by decide) (by decide)⟩

/-! ## Claim C10: cache never exceeds cache_size -/

lemma getitem_cache_size_eq {α : Type} (c : CachedSequence α) (i : Nat) :
    ((c.getitem i).2).cache_size = c.cache_size := by
  unfold CachedSequence.getitem
  cases c.cache.find? (fun p => p.1 == i) <;> rfl

lemma getitem_cache_le {α : Type} (c : CachedSequence α) (i : Nat)
    (h1 : 1 ≤ c.cache_size) (h2 : c.cache.length ≤ c.cache_size) :
    ((c.getitem i).2).cache.length ≤ c.cache_size := by
  unfold CachedSequence.getitem
  cases hf : c.cache.find? (fun p => p.1 == i) with
  | some p => exact h2
  | none =>
    by_cases hfull : c.cache_size ≤ c.cache.length
    · simp only [if_pos hfull, List.length_append, List.length_dropLast,
        List.length_singleton]
      omega
    · simp only [if_neg hfull, List.length_append, List.length_singleton]
      omega

lemma cacheRun_cache_le {α : Type} (calls : List Nat) :
    ∀ c : CachedSequence α, 1 ≤ c.cache_size → c.cache.length ≤ c.cache_size →
      (cacheRun c calls).cache.length ≤ (cacheRun c calls).cache_size ∧
        (cacheRun c calls).cache_size = c.cache_size := by
  induction calls with
  | nil => intro c h1 h2; exact ⟨h2, rfl⟩
  | cons i rest ih =>
    intro c h1 h2
    have hsz := getitem_cache_size_eq c i
    have hle := getitem_cache_le c i h1 h2
    have := ih ((c.getitem i).2) (by rw [hsz]; exact h1) (by rw [hsz]; exact hle)
    unfold cacheRun at this ⊢
    simp only [List.foldl_cons]
    exact ⟨this.1, by rw [this.2, hsz]⟩

/-- Claim C10: for every `cache_size ≥ 1` and every sequence of
`__getitem__` calls on a fresh `CachedSequence`, the cache holds at most
`cache_size` entries after each call; and whenever the cache is full and
the item is not cached, exactly one entry (the most recently inserted) is
evicted before the new value is appended, keeping the size at
`cache_size`. -/
theorem cached_sequence_cache_bounded {α : Type} (arr : Nat → α)
    (cache_size : Nat) (h : 1 ≤ cache_size) (calls : List Nat) :
    (cacheRun (add_cache arr cache_size) calls).cache.length ≤ cache_size ∧
    (∀ (c : CachedSequence α) (item : Nat),
      c.cache_size = cache_size → c.cache.length = cache_size →
      c.cache.find? (fun p => p.1 == item) = none →
      (c.getitem item).2.cache = c.cache.dropLast ++ [(item, c.arr item)] ∧
        (c.getitem item).2.cache.length = cache_size) := by
  constructor
  · obtain ⟨ha, hb⟩ := cacheRun_cache_le calls (add_cache arr cache_size) h
      (by simp [add_cache])
    rw [hb] at ha
    exact ha
  · intro c item hsz hfull hmiss
    have hcond : c.cache_size ≤ c.cache.length := le_of_eq (hsz.trans hfull.symm)
    have hstep : c.getitem item =
        (c.arr item, { c with cache := c.cache.dropLast ++ [(item, c.arr item)] }) := by
      unfold CachedSequence.getitem
      rw [hmiss]
      simp only [if_pos hcond]
    rw [hstep]
    refine ⟨rfl, ?_⟩
    simp only [List.length_append, List.length_dropLast, List.length_singleton,
      hfull]
    omega

/-- Witness for C10 at `cache_size = 1` with calls `[0, 1, 2]`. -/
theorem cached_sequence_cache_bounded_witness :
    1 ≤ 1 ∧
    ((cacheRun (add_cache (fun i : Nat => i) 1) [0, 1, 2]).cache.length ≤ 1 ∧
    (∀ (c : CachedSequence Nat) (item : Nat),
      c.cache_size = 1 → c.cache.length = 1 →
      c.cache.find? (fun p => p.1 == item) = none →
      (c.getitem item).2.cache = c.cache.dropLast ++ [(item, c.arr item)] ∧
        (c.getitem item).2.cache.length = 1)) :=
  ⟨by decide, cached_sequence_cache_bounded (fun i : Nat => i) 1 (by decide) [0, 1, 2]⟩

/-! ## Claim C7: worker count for nprocs ≤ 0 -/

/-- Counterexample to C7: with `cpu_count = 2` and `nprocs = -2` we have
`cpu_count + nprocs = 0 ≤ 0`, yet the adjusted count is 0 and the number of
spawned workers is 0, not the claimed 1: the code performs no clamping. -/
theorem par_iter_nprocs_not_clamped :
    ((2 : Int) + (-2) ≤ 0) ∧ parIterWorkerCount 2 (-2) = 0 ∧
      parIterSpawned 2 (-2) = 0 ∧ (0 : Nat) ≠ 1 := by decide

/-- Claim C7 (amended): for every `nprocs ≤ 0`, par_iter adjusts the count
to `nprocs + cpu_count` with no clamping; `range(nprocs)` then spawns
`max (nprocs + cpu_count) 0` workers, so whenever
`cpu_count + nprocs ≤ 0` zero workers are spawned (not 1). -/
theorem par_iter_nprocs_amended (cpu_count np : Int) (h : np ≤ 0) :
    parIterWorkerCount cpu_count np = np + cpu_count ∧
    parIterSpawned cpu_count np = (np + cpu_count).toNat ∧
    (np + cpu_count ≤ 0 → parIterSpawned cpu_count np = 0) := by
  unfold parIterSpawned parIterWorkerCount
  rw [if_pos h]
  refine ⟨rfl, rfl, fun h2 => ?_⟩
  exact Int.toNat_eq_zero.mpr h2

/-- Witness for C7 (amended) at `cpu_count = 2`, `nprocs = -2`. -/
theorem par_iter_nprocs_amended_witness :
    ((-2 : Int) ≤ 0) ∧
    (parIterWorkerCount 2 (-2) = -2 + 2 ∧
      parIterSpawned 2 (-2) = ((-2 : Int) + 2).toNat ∧
      ((-2 : Int) + 2 ≤ 0 → parIterSpawned 2 (-2) = 0)) :=
  ⟨by decide, par_iter_nprocs_amended 2 (-2) (by decide)⟩

/-! ## Claim C4: pad_last final-chunk frame effect -/

/-- Counterexample to C4: with buffer `[1..8]`, consumer offset 0,
remainder `r = 2` and `chunk_size = 4`, position 4 lies outside
`[offset + r, offset + chunk_size) = [2, 4)`, yet `b[offset + v:] = 0`
(line 293) overwrites it: the code zeroes to the end of the buffer, not to
`offset + chunk_size`. -/
theorem chunk_load_pad_clobbers_beyond_chunk :
    (padBlank [1, 2, 3, 4, 5, 6, 7, 8] (0 + 2)).get? 4 = some 0 ∧
    ([1, 2, 3, 4, 5, 6, 7, 8] : List Int).get? 4 = some 5 ∧ ¬ (4 : Nat) < 0 + 4 := by
  decide

/-- Claim C4 (amended): on the final partial chunk with `pad_last`, the
code overwrites every buffer position from `offset + r` to the end of the
buffer with 0 (not only up to `offset + chunk_size`); positions before
`offset + r` keep their previous contents, and the yielded view has length
`chunk_size`. -/
theorem chunk_load_pad_amended (b : List Int) (offset r cs : Nat)
    (hcs : offset + cs ≤ b.length) (hr : r ≤ cs) :
    (∀ i, i < offset + r → (padBlank b (offset + r)).get? i = b.get? i) ∧
    (∀ i, offset + r ≤ i → i < b.length → (padBlank b (offset + r)).get? i = some 0) ∧
    (chunkView (padBlank b (offset + r)) offset cs).length = cs := by
  have hk : offset + r ≤ b.length := le_trans (by omega) hcs
  have hlt : (b.take (offset + r)).length = offset + r := by
    simp [List.length_take]; omega
  refine ⟨?_, ?_, ?_⟩
  · intro i hi
    unfold padBlank
    rw [List.get?_append (by omega), List.get?_take hi]
  · intro i h1 h2
    unfold padBlank
    rw [List.get?_append_right (by omega), hlt]
    have hi2 : i - (offset + r) < b.length - (offset + r) := by omega
    rw [List.get?_eq_getElem?]
    simp [List.getElem?_replicate, hi2]
  · unfold chunkView padBlank
    simp [List.length_take, List.length_drop, List.length_append,
      List.length_replicate]
    omega

/-- Witness for C4 (amended) at `b = [1..8]`, `offset = 0`, `r = 2`,
`chunk_size = 4`. -/
theorem chunk_load_pad_amended_witness :
    ((0 + 4 ≤ ([1, 2, 3, 4, 5, 6, 7, 8] : List Int).length) ∧ 2 ≤ 4) ∧
    ((∀ i, i < 0 + 2 →
        (padBlank [1, 2, 3, 4, 5, 6, 7, 8] (0 + 2)).get? i =
          ([1, 2, 3, 4, 5, 6, 7, 8] : List Int).get? i) ∧
      (∀ i, 0 + 2 ≤ i → i < ([1, 2, 3, 4, 5, 6, 7, 8] : List Int).length →
        (padBlank [1, 2, 3, 4, 5, 6, 7, 8] (0 + 2)).get? i = some 0) ∧
      (chunkView (padBlank [1, 2, 3, 4, 5, 6, 7, 8] (0 + 2)) 0 4).length = 4) :=
  ⟨⟨by decide, by decide⟩,
    chunk_load_pad_amended [1, 2, 3, 4, 5, 6, 7, 8] 0 2 4 (by decide) (by decide)⟩

/-! ## Claim C6: synchronous precondition reporting in chunk_load -/

lemma fmod_coe_nonpos_of_neg (m : Nat) {b : Int} (hb : b < 0) :
    Int.fmod (m : Int) b ≤ 0 := by
  obtain ⟨n, rfl⟩ : ∃ n : Nat, b = Int.negSucc n := by
    cases b with
    | ofNat k => exact absurd hb (Int.not_lt.mpr (Int.ofNat_nonneg k))
    | negSucc n => exact ⟨n, rfl⟩
  cases m with
  | zero => simp [Int.fmod]
  | succ m' =>
    show Int.subNatNat (m' % (n + 1)) n ≤ 0
    rw [Int.subNatNat_eq_coe]
    have : m' % (n + 1) ≤ n := Nat.lt_succ_iff.mp (Nat.mod_lt _ (Nat.succ_pos n))
    omega

lemma fdiv_neg_of_pos_of_neg {a b : Int} (ha : 0 < a) (hb : b < 0) :
    Int.fdiv a b < 0 := by
  obtain ⟨n, rfl⟩ : ∃ n : Nat, b = Int.negSucc n := by
    cases b with
    | ofNat k => exact absurd hb (Int.not_lt.mpr (Int.ofNat_nonneg k))
    | negSucc n => exact ⟨n, rfl⟩
  obtain ⟨m, rfl⟩ : ∃ m : Nat, a = Int.ofNat (m + 1) := by
    cases a with
    | ofNat k =>
      cases k with
      | zero => exact absurd ha (by simp)
      | succ k' => exact ⟨k', rfl⟩
    | negSucc k => exact absurd ha (Int.not_lt.mpr (le_of_lt (Int.negSucc_lt_zero k)))
  show Int.negSucc (m / (n + 1)) < 0
  exact Int.negSucc_lt_zero _

lemma foldl_min_ge : ∀ (xs : List Int) (a : Int), 1 ≤ a →
    (∀ x ∈ xs, (1 : Int) ≤ x) → 1 ≤ xs.foldl min a := by
  intro xs
  induction xs with
  | nil => intro a ha _; exact ha
  | cons y ys ih =>
    intro a ha h
    show 1 ≤ ys.foldl min (min a y)
    exact ih (min a y) (le_min ha (h y (by simp))) (fun x hx => h x (by simp [hx]))

lemma listMinInt_pos {l : List Int} (hl : l ≠ []) (h : ∀ x ∈ l, (1 : Int) ≤ x) :
    1 ≤ listMinInt l := by
  cases l with
  | nil => exact absurd rfl hl
  | cons x xs =>
    exact foldl_min_ge xs x (h x (by simp)) (fun y hy => h y (by simp [hy]))

/-- Counterexample to C6: with one source, one buffer of length 0, and
`chunk_size = -1` (which is ≤ 0 and not a length mismatch), the
synchronous prelude of chunk_load completes without any error: the assert
passes, `0 % -1 = 0` and `0 // -1 = 0`, so `Semaphore(0)` is accepted.
The claim demanded an immediate programmer error for every
`chunk_size ≤ 0`. -/
theorem chunk_load_sync_check_gap :
    (1 = List.length ([0] : List Nat)) ∧ ((-1 : Int) ≤ 0) ∧
    chunkLoadSyncCheck 1 [0] (-1) = .ok 0 :=
  ⟨by decide, by decide, by rfl⟩

/-- Claim C6 (amended): the synchronous prelude of chunk_load reports an
error whenever the lengths mismatch, or `chunk_size = 0` (ZeroDivisionError,
or ValueError from `min([])` when the buffer list is empty), or
`chunk_size < 0` provided the buffer list is empty or every buffer is
nonempty (ValueError from a negative `Semaphore` value).  When
`chunk_size < 0` and some buffer has length 0, no synchronous error is
reported. -/
theorem chunk_load_sync_amended (nsources : Nat) (bufLens : List Nat) (cs : Int)
    (h : nsources ≠ bufLens.length ∨ cs = 0 ∨
      (cs < 0 ∧ (bufLens = [] ∨ ∀ L ∈ bufLens, 0 < L))) :
    ∃ e, chunkLoadSyncCheck nsources bufLens cs = .error e := by
  unfold chunkLoadSyncCheck
  by_cases h1 : nsources ≠ bufLens.length
  · rw [if_pos h1]; exact ⟨_, rfl⟩
  rw [if_neg h1]
  by_cases h2 : bufLens = []
  · rw [if_pos h2]; exact ⟨_, rfl⟩
  rw [if_neg h2]
  by_cases h3 : cs = 0
  · rw [if_pos h3]; exact ⟨_, rfl⟩
  rw [if_neg h3]
  have hrest : cs < 0 ∧ ∀ L ∈ bufLens, 0 < L := by
    rcases h with h | h | ⟨hc, h | h⟩
    · exact absurd h h1
    · exact absurd h h3
    · exact absurd h h2
    · exact ⟨hc, h⟩
  have hterms : ∀ x ∈ bufLens.map (fun (L : Nat) => (L : Int) - Int.fmod (L : Int) cs),
      (1 : Int) ≤ x := by
    intro x hx
    obtain ⟨L, hL, rfl⟩ := List.mem_map.mp hx
    have h1L : 0 < L := hrest.2 L hL
    have h2L : Int.fmod (L : Int) cs ≤ 0 := fmod_coe_nonpos_of_neg L hrest.1
    have h3L : (1 : Int) ≤ (L : Int) := by exact_mod_cast h1L
    omega
  have hne : bufLens.map (fun (L : Nat) => (L : Int) - Int.fmod (L : Int) cs) ≠ [] :=
    fun hmap => h2 (List.map_eq_nil.mp hmap)
  have hpos :
      1 ≤ listMinInt (bufLens.map (fun (L : Nat) => (L : Int) - Int.fmod (L : Int) cs)) :=
    listMinInt_pos hne hterms
  have hlt : Int.fdiv
      (listMinInt (bufLens.map (fun (L : Nat) => (L : Int) - Int.fmod (L : Int) cs))) cs < 0 :=
    fdiv_neg_of_pos_of_neg (by omega) hrest.1
  rw [if_pos hlt]
  exact ⟨_, rfl⟩

/-- Witness for C6 (amended) at a length mismatch: 2 sources, one buffer. -/
theorem chunk_load_sync_amended_witness :
    ((2 : Nat) ≠ List.length ([4] : List Nat) ∨ (3 : Int) = 0 ∨
      ((3 : Int) < 0 ∧ (([4] : List Nat) = [] ∨ ∀ L ∈ ([4] : List Nat), 0 < L))) ∧
    ∃ e, chunkLoadSyncCheck 2 [4] 3 = .error e :=
  ⟨Or.inl (by decide), chunk_load_sync_amended 2 [4] 3 (Or.inl (by decide))⟩

/-! ## Claim C2: totals under the ring protocol -/

/-- Claim C2 (refuted on the code): for
`chunk_load(sources=[range(8)], buffers=[len-8 buffer], chunk_size=4,
pad_last=False)` there is a legal interleaving (`raceSched`) in which the
producer writes both chunks and reaches StopIteration before the
consumer's second `end_evt` check; the consumer then takes the
end-of-stream branch, sees remainder 0 and terminates after yielding only
the first chunk: 4 elements in total instead of N = 8.  The run completes
cleanly (consumer done, producer joined), so this is a genuine completed
run of chunk_load with the wrong total. -/
theorem chunk_load_race_loses_chunk :
    (chunkRun raceParams (List.replicate 8 0) raceSched).map
        (fun s => (totalYield s, s.yields, s.cphase, s.pphase, s.raised)) =
      some (4, [[0, 1, 2, 3]], .done, .exited, none) ∧
    raceParams.items.length = 8 ∧ raceParams.pad_last = false ∧
    1 ≤ raceParams.n_chunks ∧ (4 : Nat) ≠ 8 := by decide

/-! ## Claim C3: failure transport in chunk_load -/

/-- Claim C3 (refuted on the code): even when the exception and traceback
pickle, `end_data.put(ev, tb)` (line 235) enqueues only the bare exception
(`tb` lands in Queue.put's `block` parameter), so the consumer's tuple
branch (line 302) never matches and the AccessException is raised without
a cause (lines 307-309).  Here a full run over a source whose iterator
raises a picklable exception ends with an unchained AccessException. -/
theorem chunk_load_failure_never_chained :
    failRecord true = .vexc ∧
    (chunkRun failParams (List.replicate 8 0) failSched).map
        (fun s => (s.raised, s.cphase, s.pphase)) =
      some (some .unchained, .done, .exited) ∧
    some RaiseKind.unchained ≠ some RaiseKind.chained := by decide

/-! ## Claim C8: end_data terminator records -/

/-- Counterexample to C8: on a source of length 0 the producer puts the
StopIteration remainder record and then the final None of line 241 before
exiting: two records on `end_data`, not exactly one. -/
theorem chunk_load_producer_puts_two_records :
    (chunkRun emptyParams (List.replicate 8 0) [.pStop, .pExitPut]).map
        (fun s => (s.endTrace, s.pphase)) =
      some ([.vint 0, .vnone], .exited) ∧
    ([QueueVal.vint 0, QueueVal.vnone] : List QueueVal).length ≠ 1 := by decide


lemma consumeEnd_keeps (P : ChunkParams) (s : ChunkState) (v : QueueVal) :
    (consumeEnd P s v).pphase = s.pphase ∧ (consumeEnd P s v).endTrace = s.endTrace := by
  unfold consumeEnd
  repeat' split
  all_goals exact ⟨rfl, rfl⟩

lemma consumeEnd_endTraceInv (P : ChunkParams) (s : ChunkState) (v : QueueVal)
    (hs : EndTraceInv s) : EndTraceInv (consumeEnd P s v) := by
  obtain ⟨h1, h2⟩ := consumeEnd_keeps P s v
  obtain ⟨ha, hb, hc⟩ := hs
  refine ⟨fun hp => ?_, fun hp => ?_, fun hp => ?_⟩ <;> rw [h1] at hp <;> rw [h2]
  · exact ha hp
  · exact hb hp
  · exact hc hp

lemma chunkStep_endTrace (P : ChunkParams) (l : CLabel) (s t : ChunkState)
    (h : chunkStep P l s = some t) (hs : EndTraceInv s) : EndTraceInv t := by
  obtain ⟨hrun, hend, hexit⟩ := hs
  unfold chunkStep at h
  repeat' split at h
  all_goals try exact Option.noConfusion h
  all_goals replace h := Option.some.inj h
  all_goals subst h
  all_goals unfold EndTraceInv
  all_goals try exact ⟨fun hp => hrun hp, fun hp => hend hp, fun hp => hexit hp⟩
  all_goals try exact consumeEnd_endTraceInv P _ _ (And.intro (fun hp => hrun hp)
    (And.intro (fun hp => hend hp) (fun hp => hexit hp)))
  all_goals try refine ⟨fun hp => ?_, fun hp => ?_, fun hp => ?_⟩
  all_goals try simp_all [putEnd]
  rcases hend with hD | ⟨v2, hv2⟩
  · exact Or.inl hD
  · exact Or.inr ⟨v2, by rw [hv2]; rfl⟩

lemma chunkRun_endTrace_aux (P : ChunkParams) :
    ∀ (ls : List CLabel) (s0 : ChunkState), EndTraceInv s0 →
      ∀ s, ls.foldlM (fun s l => chunkStep P l s) s0 = some s → EndTraceInv s := by
  intro ls
  induction ls with
  | nil =>
    intro s0 h0 s hs
    simp only [List.foldlM_nil] at hs
    exact Option.some.inj hs ▸ h0
  | cons l rest ih =>
    intro s0 h0 s hs
    simp only [List.foldlM_cons] at hs
    cases hstep : chunkStep P l s0 with
    | none => rw [hstep] at hs; exact Option.noConfusion hs
    | some s1 =>
      rw [hstep] at hs
      exact ih s1 (chunkStep_endTrace P l s0 s1 hstep h0) s hs

/-- Claim C8 (amended): in every run of the chunk_load machine, the
producer's `end_data` put history is empty while its loop runs, contains
at most one end-of-stream record (remainder or failure) once the loop has
been left, and after the producer exits consists of exactly one final None
preceded by at most one end-of-stream record: two records in total when
the producer terminated the stream itself (line 226 or 235-237 plus line
241), and the single final None of line 241 when the consumer aborted
first.  In particular end-of-stream is signaled at most once, but the
total number of records put is two, not one, on self-terminated runs. -/
theorem chunk_load_end_records_amended (P : ChunkParams) (b0 : List Int)
    (ls : List CLabel) (s : ChunkState)
    (h : chunkRun P b0 ls = some s) : EndTraceInv s := by
  have h0 : EndTraceInv (chunkInit P b0) := by
    refine ⟨fun _ => rfl, fun hp => ?_, fun hp => ?_⟩
    · exact Option.noConfusion (congrArg (fun p => match p with
        | PPhase.running => some 0 | _ => none) hp)
    · exact Option.noConfusion (congrArg (fun p => match p with
        | PPhase.running => some 0 | _ => none) hp)
  exact chunkRun_endTrace_aux P ls (chunkInit P b0) h0 s h

/-- Witness for C8 (amended): the completed producer-only run over an
empty source, whose trace is the remainder record followed by the final
None. -/
theorem chunk_load_end_records_amended_witness :
    (chunkRun emptyParams (List.replicate 8 0) [.pStop, .pExitPut] = some emptyRunFinal) ∧
    EndTraceInv emptyRunFinal :=
  ⟨by decide, chunk_load_end_records_amended emptyParams (List.replicate 8 0)
    [.pStop, .pExitPut] emptyRunFinal (by decide)⟩

/-! ## Claim C1: par_iter order preservation -/

lemma length_filter_lt_of_mem {β : Type} {l : List β} {p : β} (f : β → Bool)
    (hp : p ∈ l) (hf : f p = false) : (l.filter f).length < l.length := by
  induction l with
  | nil => cases hp
  | cons x xs ih =>
    rw [List.filter_cons]
    rcases List.mem_cons.mp hp with rfl | hmem
    · rw [hf]
      exact Nat.lt_succ_of_le (List.length_filter_le f xs)
    · by_cases hx : f x = true
      · rw [if_pos hx]
        exact Nat.succ_lt_succ (ih hmem)
      · rw [if_neg hx]
        exact Nat.lt_succ_of_lt (ih hmem)

lemma drainLoop_spec {α : Type} (get : Nat → α) (seen : List Nat) :
    ∀ (fuel : Nat) (s : ParLoopState α), ParPre get seen s →
      s.results.length ≤ fuel → ParInv get seen (drainLoop get fuel s) := by
  intro fuel
  induction fuel with
  | zero =>
    intro s hpre hlen
    have hnil : s.results = [] := List.length_eq_zero.mp (Nat.le_zero.mp hlen)
    unfold drainLoop
    exact ⟨hpre, by rw [hnil]; rfl⟩
  | succ fuel ih =>
    intro s hpre hlen
    obtain ⟨hvals, hnd, hkeys, hlow, hout⟩ := hpre
    unfold drainLoop
    cases hf : s.results.find? (fun p => p.1 == s.n_done) with
    | none => exact ⟨⟨hvals, hnd, hkeys, hlow, hout⟩, hf⟩
    | some p =>
      have hmem : p ∈ s.results := List.mem_of_find?_eq_some hf
      have hkey : p.1 = s.n_done := by simpa using List.find?_some hf
      have hfilterf : (fun q : Nat × α => q.1 != s.n_done) p = false := by
        simp [hkey]
      have hpre' : ParPre get seen
          ⟨s.results.filter (fun q => q.1 != s.n_done), s.n_done + 1,
            s.out ++ [p.2]⟩ := by
        unfold ParPre
        dsimp only
        refine ⟨?_, ?_, ?_, ?_, ?_⟩
        · intro q hq
          exact hvals q (List.mem_of_mem_filter hq)
        · exact List.Nodup.sublist
            (List.Sublist.map Prod.fst (List.filter_sublist s.results)) hnd
        · intro i
          constructor
          · rintro ⟨v, hv⟩
            have hv1 : (i, v) ∈ s.results := List.mem_of_mem_filter hv
            have hv2 := List.mem_filter.mp hv
            have hne : i ≠ s.n_done := by simpa using hv2.2
            have := (hkeys i).mp ⟨v, hv1⟩
            exact ⟨this.1, by omega⟩
          · rintro ⟨hi1, hi2⟩
            obtain ⟨v, hv⟩ := (hkeys i).mpr ⟨hi1, by omega⟩
            refine ⟨v, List.mem_filter.mpr ⟨hv, ?_⟩⟩
            simp only [bne_iff_ne, ne_eq]
            omega
        · intro i hi
          rcases Nat.lt_succ_iff_lt_or_eq.mp hi with hi' | heq
          · exact hlow i hi'
          · subst heq
            have hpm : (p.1, p.2) ∈ s.results := by
              rw [Prod.mk.eta]; exact hmem
            rw [hkey] at hpm
            exact ((hkeys s.n_done).mp ⟨p.2, hpm⟩).1
        · have hval : p.2 = get s.n_done := by rw [hvals p hmem, hkey]
          rw [hout, hval, List.range_succ, List.map_append]
          rfl
      have hlen' : (s.results.filter (fun q => q.1 != s.n_done)).length ≤ fuel := by
        have := length_filter_lt_of_mem (fun q : Nat × α => q.1 != s.n_done) hmem hfilterf
        omega
      exact ih _ hpre' hlen'

lemma parStep_inv {α : Type} (get : Nat → α) (seen : List Nat)
    (s : ParLoopState α) (idx : Nat) (h : ParInv get seen s) (hidx : idx ∉ seen) :
    ParInv get (seen ++ [idx]) (parStep get s idx) := by
  obtain ⟨⟨hvals, hnd, hkeys, hlow, hout⟩, _⟩ := h
  have hnotdone : s.n_done ≤ idx := by
    by_contra hc
    exact hidx (hlow idx (by omega))
  have hnotkey : idx ∉ s.results.map Prod.fst := by
    intro hc
    obtain ⟨q, hq, hq1⟩ := List.mem_map.mp hc
    have : (idx, q.2) ∈ s.results := by
      have : q = (idx, q.2) := by
        cases q; simp at hq1; simp [hq1]
      rw [← this]; exact hq
    exact hidx (((hkeys idx).mp ⟨q.2, this⟩).1)
  apply drainLoop_spec
  · refine ⟨?_, ?_, ?_, ?_, ?_⟩
    · intro q hq
      rcases List.mem_append.mp hq with hq' | hq'
      · exact hvals q hq'
      · have : q = (idx, get idx) := by simpa using hq'
        rw [this]
    · rw [List.map_append]
      refine List.Nodup.append hnd (by simp) ?_
      intro a ha hb
      have : a = idx := by simpa using hb
      rw [this] at ha
      exact hnotkey ha
    · intro i
      constructor
      · rintro ⟨v, hv⟩
        rcases List.mem_append.mp hv with hv' | hv'
        · have := (hkeys i).mp ⟨v, hv'⟩
          exact ⟨List.mem_append.mpr (Or.inl this.1), this.2⟩
        · have hiv : i = idx ∧ v = get idx := by simpa using hv'
          refine ⟨List.mem_append.mpr (Or.inr (by simp [hiv.1])), ?_⟩
          rw [hiv.1]; exact hnotdone
      · rintro ⟨hi1, hi2⟩
        rcases List.mem_append.mp hi1 with hi' | hi'
        · obtain ⟨v, hv⟩ := (hkeys i).mpr ⟨hi', hi2⟩
          exact ⟨v, List.mem_append.mpr (Or.inl hv)⟩
        · have : i = idx := by simpa using hi'
          exact ⟨get idx, List.mem_append.mpr (Or.inr (by simp [this]))⟩
    · intro i hi
      exact List.mem_append.mpr (Or.inl (hlow i hi))
    · exact hout
  · exact Nat.le_refl _

lemma parIterRun_inv {α : Type} (get : Nat → α) :
    ∀ (l seen : List Nat) (s : ParLoopState α), ParInv get seen s →
      (seen ++ l).Nodup → ParInv get (seen ++ l) (l.foldl (parStep get) s) := by
  intro l
  induction l with
  | nil =>
    intro seen s h _
    simpa using h
  | cons i rest ih =>
    intro seen s h hnd
    have hi : i ∉ seen := by
      intro hmem
      have hd := List.disjoint_of_nodup_append hnd
      exact hd hmem (by simp)
    have h1 := parStep_inv get seen s i h hi
    have h2 := ih (seen ++ [i]) (parStep get s i) h1
      (by rw [List.append_assoc]; simpa using hnd)
    rw [List.append_assoc] at h2
    simpa using h2

/-- Claim C1: for every Indexable source of length N (element `i` reading
`get i`) and every worker completion order (an arbitrary permutation of
the index list), fully consuming the par_iter main loop yields exactly
`get 0, get 1, ..., get (N-1)` in index order, with the reorder buffer
drained and `n_done = N` at the end. -/
theorem par_iter_order_preserved {α : Type} (get : Nat → α) (N : Nat)
    (arrivals : List Nat) (h : arrivals.Perm (List.range N)) :
    (parIterRun get arrivals).out = (List.range N).map get ∧
    (parIterRun get arrivals).n_done = N ∧
    (parIterRun get arrivals).results = [] := by
  have hbase : ParInv get [] (⟨[], 0, []⟩ : ParLoopState α) := by
    unfold ParInv ParPre
    dsimp only
    refine ⟨⟨?_, ?_, ?_, ?_, ?_⟩, ?_⟩
    · intro p hp; cases hp
    · simp
    · intro i
      constructor
      · rintro ⟨v, hv⟩; cases hv
      · rintro ⟨hi, _⟩; cases hi
    · intro i hi; omega
    · rfl
    · rfl
  have hnd : (([] : List Nat) ++ arrivals).Nodup := by
    simp only [List.nil_append]
    exact h.nodup_iff.mpr (List.nodup_range N)
  have hinv := parIterRun_inv get arrivals [] ⟨[], 0, []⟩ hbase hnd
  simp only [List.nil_append] at hinv
  obtain ⟨⟨hvals, hnd2, hkeys, hlow, hout⟩, hfind⟩ := hinv
  have ht : List.foldl (parStep get) (⟨[], 0, []⟩ : ParLoopState α) arrivals =
      parIterRun get arrivals := rfl
  rw [ht] at hvals hnd2 hkeys hlow hout hfind
  have hmemiff : ∀ a, a ∈ arrivals ↔ a ∈ List.range N := fun a => h.mem_iff
  generalize hgen : parIterRun get arrivals = t at *
  have hle : t.n_done ≤ N := by
    by_contra hc
    have : N ∈ arrivals := hlow N (by omega)
    have := (hmemiff N).mp this
    exact absurd (List.mem_range.mp this) (lt_irrefl N)
  have hge : N ≤ t.n_done := by
    by_contra hc
    have h1 : t.n_done ∈ arrivals := (hmemiff t.n_done).mpr (List.mem_range.mpr (by omega))
    obtain ⟨v, hv⟩ := (hkeys t.n_done).mpr ⟨h1, Nat.le_refl _⟩
    have := List.find?_eq_none.mp hfind (t.n_done, v) hv
    simp at this
  have hdone : t.n_done = N := le_antisymm hle hge
  refine ⟨by rw [hout, hdone], hdone, ?_⟩
  rw [List.eq_nil_iff_forall_not_mem]
  intro p hp
  have hpk : (p.1, p.2) ∈ t.results := by rw [Prod.mk.eta]; exact hp
  have := (hkeys p.1).mp ⟨p.2, hpk⟩
  have h1 : p.1 ∈ List.range N := (hmemiff p.1).mp this.1
  have h2 := List.mem_range.mp h1
  omega

/-- Witness for C1 at `N = 3` with completion order `[2, 0, 1]` and
`get i = 10 * (i + 1)`. -/
theorem par_iter_order_preserved_witness :
    (([2, 0, 1] : List Nat).Perm (List.range 3)) ∧
    ((parIterRun (fun i => 10 * (i + 1)) [2, 0, 1]).out =
        (List.range 3).map (fun i => 10 * (i + 1)) ∧
      (parIterRun (fun i => 10 * (i + 1)) [2, 0, 1]).n_done = 3 ∧
      (parIterRun (fun i => 10 * (i + 1)) [2, 0, 1]).results = []) :=
  ⟨by decide, par_iter_order_preserved (fun i => 10 * (i + 1)) 3 [2, 0, 1] (by decide)⟩

/-! ## Claim C5: par_iter failure isolation and clean shutdown -/

lemma countP_add_countP_not {β : Type} (p : β → Bool) (l : List β) :
    l.countP p + l.countP (fun a => !(p a)) = l.length := by
  induction l with
  | nil => rfl
  | cons x xs ih =>
    rw [List.countP_cons, List.countP_cons]
    by_cases hx : p x = true
    · rw [if_pos hx, if_neg (by simp [hx])]
      simp only [List.length_cons]
      omega
    · rw [if_neg hx, if_pos (by simp [Bool.not_eq_true] at hx; simp [hx])]
      simp only [List.length_cons]
      omega

lemma countP_set_eq {β : Type} (l : List β) (w : Nat) (a b : β) (p : β → Bool)
    (h : l.get? w = some a) :
    (l.set w b).countP p + (if p a then 1 else 0) =
      l.countP p + (if p b then 1 else 0) := by
  induction l generalizing w with
  | nil => cases h
  | cons x xs ih =>
    cases w with
    | zero =>
      have hx : x = a := by
        rw [List.get?_cons_zero] at h
        exact Option.some.inj h
      subst hx
      show (b :: xs).countP p + _ = _
      rw [List.countP_cons, List.countP_cons]
      omega
    | succ w =>
      rw [List.get?_cons_succ] at h
      have := ih w h
      show (x :: xs.set w b).countP p + _ = _
      rw [List.countP_cons, List.countP_cons]
      omega

lemma countP_lt_length_of_mem {β : Type} {l : List β} {a : β} (p : β → Bool)
    (ha : a ∈ l) (hp : p a = false) : l.countP p < l.length := by
  have h1 := countP_add_countP_not p l
  have h2 : 0 < l.countP (fun x => !(p x)) :=
    List.countP_pos.mpr ⟨a, ha, by simp [hp]⟩
  omega

lemma countP_pos_of_get? {β : Type} {l : List β} {w : Nat} {a : β} (p : β → Bool)
    (h : l.get? w = some a) (hp : p a = true) : 0 < l.countP p :=
  List.countP_pos.mpr ⟨a, List.get?_mem h, hp⟩

/-- Every enabled step of the shutdown protocol strictly decreases the
measure: no infinite execution exists, whatever the interleaving. -/
theorem cstep_measure_decreases (s t : CleanupState) (h : CStep s t) :
    cMeasure t < cMeasure s := by
  cases h with
  | drainGet r rest hm hq =>
    unfold cMeasure qinWork qinSent busyCount liveCount nprocs
    dsimp only
    rw [hm, hq]
    simp only [List.length_cons, phaseCost]
    omega
  | drainDone hm hq =>
    unfold cMeasure qinWork qinSent busyCount liveCount nprocs
    dsimp only
    rw [hm]
    simp only [phaseCost]
    omega
  | send hm hts hcap =>
    unfold cMeasure qinWork qinSent busyCount liveCount nprocs
    dsimp only
    rw [hm]
    rw [List.countP_append, List.countP_append]
    have h1 : List.countP isWork [WMsg.sentinel] = 0 := by
      simp [List.countP_cons, isWork]
    have h2 : List.countP (fun m => !isWork m) [WMsg.sentinel] = 1 := by
      simp [List.countP_cons, isWork]
    rw [h1, h2]
    simp only [phaseCost]
    omega
  | sendDone hm hts =>
    unfold cMeasure qinWork qinSent busyCount liveCount nprocs
    dsimp only
    rw [hm]
    simp only [phaseCost]
    omega
  | joinStep hm hget =>
    have hlt : s.joinIdx < s.workers.length := by
      rcases List.get?_eq_some.mp hget with ⟨hl, _⟩
      exact hl
    unfold cMeasure
    dsimp only
    rw [hm]
    by_cases hc : s.joinIdx + 1 = nprocs s
    · rw [if_pos hc]
      unfold nprocs at hc
      unfold qinWork qinSent busyCount liveCount nprocs
      simp only [phaseCost]
      omega
    · rw [if_neg hc]
      unfold nprocs at hc
      unfold qinWork qinSent busyCount liveCount nprocs
      simp only [phaseCost]
      omega
  | takeWork w i rest hget hq =>
    have hbusy := countP_set_eq s.workers w _ (.busy i) isBusy hget
    have hlive := countP_set_eq s.workers w _ (.busy i)
      (fun x => !(isExited x)) hget
    unfold cMeasure qinWork qinSent busyCount liveCount nprocs
    dsimp only
    rw [hq]
    simp only [List.countP_cons, List.length_set]
    simp [isWork, isBusy, isExited] at hbusy hlive ⊢
    omega
  | takeSent w rest hget hq =>
    have hbusy := countP_set_eq s.workers w _ .exited isBusy hget
    have hlive := countP_set_eq s.workers w _ .exited
      (fun x => !(isExited x)) hget
    unfold cMeasure qinWork qinSent busyCount liveCount nprocs
    dsimp only
    rw [hq]
    simp only [List.countP_cons, List.length_set]
    simp [isWork, isBusy, isExited] at hbusy hlive ⊢
    omega
  | put w i hget hcap =>
    have hbusy := countP_set_eq s.workers w _ .waiting isBusy hget
    have hlive := countP_set_eq s.workers w _ .waiting
      (fun x => !(isExited x)) hget
    unfold cMeasure qinWork qinSent busyCount liveCount nprocs
    dsimp only
    simp only [List.length_set, List.length_append, List.length_cons,
      List.length_nil]
    simp [isBusy, isExited] at hbusy hlive ⊢
    omega

theorem cstep_preserves_inv (s t : CleanupState) (h : CStep s t) (hinv : CInv s) :
    CInv t := by
  obtain ⟨hn, hwork, hsent, hcap, hjoin, hjlt, hjdone, hts, hj0⟩ := hinv
  cases h with
  | drainGet r rest hm hq =>
    refine ⟨hn, hwork, hsent, ?_, hjoin, ?_, ?_, ?_, ?_⟩
    · intro hx; exact absurd hm hx
    · intro hx; rw [hm] at hx; cases hx
    · intro hx; rw [hm] at hx; cases hx
    · intro hx
      rcases hx with hx | hx <;> rw [hm] at hx <;> cases hx
    · intro _; exact hj0 (Or.inl hm)
  | drainDone hm hq =>
    refine ⟨hn, hwork, hsent, ?_, hjoin, ?_, ?_, ?_, ?_⟩
    · intro _
      show s.qout.length + busyCount s + qinWork s ≤ 2 * nprocs s
      rw [hq]
      have hb : busyCount s ≤ nprocs s := List.countP_le_length isBusy
      simp only [List.length_nil]
      omega
    · intro hx; cases hx
    · intro hx; cases hx
    · intro hx; rcases hx with hx | hx <;> cases hx
    · intro _; exact hj0 (Or.inl hm)
  | send hm hts0 hcap0 =>
    have hqw : qinWork { s with qin := s.qin ++ [.sentinel], toSend := s.toSend - 1 } =
        qinWork s := by
      unfold qinWork
      dsimp only
      rw [List.countP_append]
      simp [List.countP_cons, isWork]
    have hqs : qinSent { s with qin := s.qin ++ [.sentinel], toSend := s.toSend - 1 } =
        qinSent s + 1 := by
      unfold qinSent
      dsimp only
      rw [List.countP_append]
      simp [List.countP_cons, isWork]
    refine ⟨hn, ?_, ?_, ?_, hjoin, ?_, ?_, ?_, ?_⟩
    · rw [hqw]; exact hwork
    · show qinSent _ + exitedCount s + (s.toSend - 1) = nprocs s
      rw [hqs]
      omega
    · intro _
      show s.qout.length + busyCount s + qinWork _ ≤ 2 * nprocs s
      rw [hqw]
      exact hcap (by rw [hm]; intro hx; cases hx)
    · intro hx; rw [hm] at hx; cases hx
    · intro hx; rw [hm] at hx; cases hx
    · intro hx
      rcases hx with hx | hx <;> rw [hm] at hx <;> cases hx
    · intro _; exact hj0 (Or.inr hm)
  | sendDone hm hts0 =>
    refine ⟨hn, hwork, hsent, ?_, hjoin, ?_, ?_, ?_, ?_⟩
    · intro _
      exact hcap (by rw [hm]; intro hx; cases hx)
    · intro _
      show s.joinIdx < nprocs s
      rw [hj0 (Or.inr hm)]
      exact hn
    · intro hx; cases hx
    · intro _; exact hts0
    · intro hx; rcases hx with hx | hx <;> cases hx
  | joinStep hm hget =>
    have hlt : s.joinIdx < nprocs s := by
      rcases List.get?_eq_some.mp hget with ⟨hl, _⟩
      exact hl
    by_cases hc : s.joinIdx + 1 = nprocs s
    · rw [if_pos hc]
      refine ⟨hn, hwork, hsent, ?_, ?_, ?_, ?_, ?_, ?_⟩
      · intro _
        exact hcap (by rw [hm]; intro hx; cases hx)
      · intro i0 hi0
        rcases Nat.lt_succ_iff_lt_or_eq.mp hi0 with hi' | heq
        · exact hjoin i0 hi'
        · subst heq; exact hget
      · intro hx; cases hx
      · intro _; exact hc
      · intro _; exact hts (Or.inl hm)
      · intro hx; rcases hx with hx | hx <;> cases hx
    · rw [if_neg hc]
      refine ⟨hn, hwork, hsent, ?_, ?_, ?_, ?_, ?_, ?_⟩
      · intro _
        exact hcap (by rw [hm]; intro hx; cases hx)
      · intro i0 hi0
        rcases Nat.lt_succ_iff_lt_or_eq.mp hi0 with hi' | heq
        · exact hjoin i0 hi'
        · subst heq; exact hget
      · intro _
        show s.joinIdx + 1 < nprocs s
        omega
      · intro hx; cases hx
      · intro _; exact hts (Or.inl hm)
      · intro hx; rcases hx with hx | hx <;> cases hx
  | takeWork w i rest hget hq =>
    have hqw : List.countP isWork s.qin = List.countP isWork rest + 1 := by
      rw [hq, List.countP_cons, if_pos (by rfl)]
    have hqs : List.countP (fun m => !isWork m) s.qin =
        List.countP (fun m => !isWork m) rest := by
      rw [hq, List.countP_cons, if_neg (by simp [isWork])]
      omega
    have hbusy := countP_set_eq s.workers w _ (.busy i) isBusy hget
    have hexit := countP_set_eq s.workers w _ (.busy i) isExited hget
    rw [show (if isBusy WState.waiting = true then 1 else 0) = 0 from rfl,
        show (if isBusy (WState.busy i) = true then 1 else 0) = 1 from rfl] at hbusy
    rw [show (if isExited WState.waiting = true then 1 else 0) = 0 from rfl,
        show (if isExited (WState.busy i) = true then 1 else 0) = 0 from rfl] at hexit
    have hlen : (s.workers.set w (.busy i)).length = s.workers.length :=
      List.length_set s.workers w _
    refine ⟨?_, ?_, ?_, ?_, ?_, ?_, ?_, ?_, ?_⟩
    · show 1 ≤ nprocs _
      unfold nprocs at hn ⊢
      dsimp only
      omega
    · show qinWork _ ≤ nprocs _
      unfold qinWork nprocs at hwork
      unfold qinWork nprocs
      dsimp only
      omega
    · show qinSent _ + exitedCount _ + _ = nprocs _
      unfold qinSent exitedCount nprocs at hsent ⊢
      dsimp only
      omega
    · intro hx
      have hx' : s.mphase ≠ .drain := hx
      have hc := hcap hx'
      show List.length _ + busyCount _ + qinWork _ ≤ 2 * nprocs _
      unfold busyCount qinWork nprocs at hc ⊢
      dsimp only
      omega
    · intro i0 hi0
      have hi0' : i0 < s.joinIdx := hi0
      have hne : w ≠ i0 := by
        intro heq
        subst heq
        rw [hjoin w hi0'] at hget
        exact WState.noConfusion (Option.some.inj hget)
      show (s.workers.set w (.busy i)).get? i0 = some .exited
      rw [List.get?_set_ne _ _ hne]
      exact hjoin i0 hi0'
    · intro hx
      have := hjlt hx
      show s.joinIdx < nprocs _
      unfold nprocs at this ⊢
      dsimp only
      omega
    · intro hx
      have := hjdone hx
      show s.joinIdx = nprocs _
      unfold nprocs at this ⊢
      dsimp only
      omega
    · intro hx; exact hts hx
    · intro hx; exact hj0 hx
  | takeSent w rest hget hq =>
    have hqw : List.countP isWork s.qin = List.countP isWork rest := by
      rw [hq, List.countP_cons, if_neg (by simp [isWork])]
      omega
    have hqs : List.countP (fun m => !isWork m) s.qin =
        List.countP (fun m => !isWork m) rest + 1 := by
      rw [hq, List.countP_cons, if_pos (by rfl)]
    have hbusy := countP_set_eq s.workers w _ .exited isBusy hget
    have hexit := countP_set_eq s.workers w _ .exited isExited hget
    rw [show (if isBusy WState.waiting = true then 1 else 0) = 0 from rfl,
        show (if isBusy WState.exited = true then 1 else 0) = 0 from rfl] at hbusy
    rw [show (if isExited WState.waiting = true then 1 else 0) = 0 from rfl,
        show (if isExited WState.exited = true then 1 else 0) = 1 from rfl] at hexit
    have hlen : (s.workers.set w .exited).length = s.workers.length :=
      List.length_set s.workers w _
    refine ⟨?_, ?_, ?_, ?_, ?_, ?_, ?_, ?_, ?_⟩
    · show 1 ≤ nprocs _
      unfold nprocs at hn ⊢
      dsimp only
      omega
    · show qinWork _ ≤ nprocs _
      unfold qinWork nprocs at hwork
      unfold qinWork nprocs
      dsimp only
      omega
    · show qinSent _ + exitedCount _ + _ = nprocs _
      unfold qinSent exitedCount nprocs at hsent ⊢
      dsimp only
      omega
    · intro hx
      have hx' : s.mphase ≠ .drain := hx
      have hc := hcap hx'
      show List.length _ + busyCount _ + qinWork _ ≤ 2 * nprocs _
      unfold busyCount qinWork nprocs at hc ⊢
      dsimp only
      omega
    · intro i0 hi0
      have hi0' : i0 < s.joinIdx := hi0
      have hne : w ≠ i0 := by
        intro heq
        subst heq
        rw [hjoin w hi0'] at hget
        exact WState.noConfusion (Option.some.inj hget)
      show (s.workers.set w .exited).get? i0 = some .exited
      rw [List.get?_set_ne _ _ hne]
      exact hjoin i0 hi0'
    · intro hx
      have := hjlt hx
      show s.joinIdx < nprocs _
      unfold nprocs at this ⊢
      dsimp only
      omega
    · intro hx
      have := hjdone hx
      show s.joinIdx = nprocs _
      unfold nprocs at this ⊢
      dsimp only
      omega
    · intro hx; exact hts hx
    · intro hx; exact hj0 hx
  | put w i hget hcap0 =>
    have hbusy := countP_set_eq s.workers w _ .waiting isBusy hget
    have hexit := countP_set_eq s.workers w _ .waiting isExited hget
    rw [show (if isBusy (WState.busy i) = true then 1 else 0) = 1 from rfl,
        show (if isBusy WState.waiting = true then 1 else 0) = 0 from rfl] at hbusy
    rw [show (if isExited (WState.busy i) = true then 1 else 0) = 0 from rfl,
        show (if isExited WState.waiting = true then 1 else 0) = 0 from rfl] at hexit
    have hlen : (s.workers.set w .waiting).length = s.workers.length :=
      List.length_set s.workers w _
    refine ⟨?_, ?_, ?_, ?_, ?_, ?_, ?_, ?_, ?_⟩
    · show 1 ≤ nprocs _
      unfold nprocs at hn ⊢
      dsimp only
      omega
    · show qinWork _ ≤ nprocs _
      unfold qinWork nprocs at hwork
      unfold qinWork nprocs
      dsimp only
      omega
    · show qinSent _ + exitedCount _ + _ = nprocs _
      unfold qinSent exitedCount nprocs at hsent ⊢
      dsimp only
      omega
    · intro hx
      have hx' : s.mphase ≠ .drain := hx
      have hc := hcap hx'
      show List.length _ + busyCount _ + qinWork _ ≤ 2 * nprocs _
      unfold busyCount qinWork nprocs at hc ⊢
      dsimp only
      rw [List.length_append]
      dsimp only [List.length_cons, List.length_nil]
      omega
    · intro i0 hi0
      have hi0' : i0 < s.joinIdx := hi0
      have hne : w ≠ i0 := by
        intro heq
        subst heq
        rw [hjoin w hi0'] at hget
        exact WState.noConfusion (Option.some.inj hget)
      show (s.workers.set w .waiting).get? i0 = some .exited
      rw [List.get?_set_ne _ _ hne]
      exact hjoin i0 hi0'
    · intro hx
      have := hjlt hx
      show s.joinIdx < nprocs _
      unfold nprocs at this ⊢
      dsimp only
      omega
    · intro hx
      have := hjdone hx
      show s.joinIdx = nprocs _
      unfold nprocs at this ⊢
      dsimp only
      omega
    · intro hx; exact hts hx
    · intro hx; exact hj0 hx

lemma cleanupInit_inv (s : CleanupState) (h : CleanupInit s) : CInv s := by
  obtain ⟨hn, hm, hts, hj, hwork, hsent, hexit⟩ := h
  refine ⟨hn, hwork, ?_, ?_, ?_, ?_, ?_, ?_, ?_⟩
  · rw [hsent, hexit]; omega
  · intro hx; exact absurd hm hx
  · intro i hi; rw [hj] at hi; cases hi
  · intro hx; rw [hm] at hx; cases hx
  · intro hx; rw [hm] at hx; cases hx
  · intro hx; rcases hx with hx | hx <;> rw [hm] at hx <;> cases hx
  · intro _; exact hj

/-- From every reachable non-final state some step is enabled: the
shutdown protocol cannot deadlock.  The drain-before-sentinel order is
load-bearing: once the drain phase has observed `q_out` empty, the pending
messages always fit into `q_out`, so a worker wanting to post is never
blocked for good. -/
theorem cstep_progress (s : CleanupState) (hinv : CInv s)
    (hnd : s.mphase ≠ .done) : ∃ t, CStep s t := by
  obtain ⟨hn, hwork, hsent, hcap, hjoin, hjlt, hjdone, hts, hj0⟩ := hinv
  cases hm : s.mphase with
  | drain =>
    cases hq : s.qout with
    | nil => exact ⟨_, CStep.drainDone s hm hq⟩
    | cons r rest => exact ⟨_, CStep.drainGet s r rest hm hq⟩
  | sendSent =>
    cases hts0 : s.toSend with
    | zero => exact ⟨_, CStep.sendDone s hm hts0⟩
    | succ k =>
      refine ⟨_, CStep.send s hm (by omega) ?_⟩
      have hpart := countP_add_countP_not isWork s.qin
      unfold qinWork at hwork
      unfold qinSent at hsent
      omega
  | joining =>
    have hj : s.joinIdx < nprocs s := hjlt hm
    cases hw : s.workers.get? s.joinIdx with
    | none =>
      exfalso
      rw [List.get?_eq_none] at hw
      unfold nprocs at hj
      omega
    | some w =>
      cases w with
      | exited => exact ⟨_, CStep.joinStep s hm hw⟩
      | busy i =>
        refine ⟨_, CStep.put s s.joinIdx i hw ?_⟩
        have hb : 0 < busyCount s :=
          countP_pos_of_get? isBusy hw (by rfl)
        have hc := hcap (by rw [hm]; intro hx; cases hx)
        omega
      | waiting =>
        have hex : exitedCount s < nprocs s :=
          countP_lt_length_of_mem isExited (List.get?_mem hw) (by rfl)
        have ht0 : s.toSend = 0 := hts (Or.inl hm)
        have hsl : 1 ≤ qinSent s := by omega
        cases hq : s.qin with
        | nil =>
          exfalso
          unfold qinSent at hsl
          rw [hq] at hsl
          simp at hsl
        | cons m rest =>
          cases m with
          | work i => exact ⟨_, CStep.takeWork s s.joinIdx i rest hw hq⟩
          | sentinel => exact ⟨_, CStep.takeSent s s.joinIdx rest hw hq⟩
  | done => exact absurd hm hnd

lemma cinv_done_all_exited (s : CleanupState) (hinv : CInv s)
    (hm : s.mphase = .done) : ∀ w ∈ s.workers, w = .exited := by
  obtain ⟨hn, hwork, hsent, hcap, hjoin, hjlt, hjdone, hts, hj0⟩ := hinv
  intro w hw
  obtain ⟨⟨i, hilt⟩, hi⟩ := List.mem_iff_get.mp hw
  have hx := hjoin i (by rw [hjdone hm]; exact hilt)
  rw [List.get?_eq_get hilt] at hx
  rw [← hi]
  exact Option.some.inj hx

/-- Claim C5: if `source.get(k)` raises for exactly one `k`, the worker
posts a failure payload and par_iter raises an AccessException whose
message is literally `Accessing index k failed` (so it references `k`),
chained to the transported cause exactly when the worker could pickle the
exception and traceback; and the shutdown protocol entered by the
`finally` block (drain `q_out`, send `nprocs` sentinels, join) never
deadlocks: from any reachable state either a step is enabled or the main
thread is done, every step decreases a fixed measure (so every execution
terminates), and every terminal state has all workers exited and joined. -/
theorem par_iter_failure_isolation (k : Nat) (p : Bool) (s0 : CleanupState)
    (h0 : CleanupInit s0) :
    ((∃ pre post, (parIterRaise (workerFailMsg k p)).msg = pre ++ toString k ++ post) ∧
      (parIterRaise (workerFailMsg k p)).chained = p) ∧
    (∀ s, Relation.ReflTransGen CStep s0 s → s.mphase ≠ .done → ∃ t, CStep s t) ∧
    (∀ s t, CStep s t → cMeasure t < cMeasure s) ∧
    (∀ s, Relation.ReflTransGen CStep s0 s → s.mphase = .done → CFinal s) := by
  have hreach : ∀ s, Relation.ReflTransGen CStep s0 s → CInv s := by
    intro s hs
    induction hs with
    | refl => exact cleanupInit_inv s0 h0
    | tail hab hbc ih => exact cstep_preserves_inv _ _ hbc ih
  refine ⟨⟨⟨"Accessing index ", " failed", rfl⟩, ?_⟩, ?_, ?_, ?_⟩
  · cases p <;> rfl
  · intro s hs hnd
    exact cstep_progress s (hreach s hs) hnd
  · intro s t hst
    exact cstep_measure_decreases s t hst
  · intro s hs hm
    exact ⟨hm, cinv_done_all_exited s (hreach s hs) hm⟩

/-- Witness for C5 at `k = 2`, picklable failure, one worker, empty
queues. -/
theorem par_iter_failure_isolation_witness :
    CleanupInit cleanupExampleState ∧
    (((∃ pre post,
        (parIterRaise (workerFailMsg 2 true)).msg = pre ++ toString 2 ++ post) ∧
      (parIterRaise (workerFailMsg 2 true)).chained = true) ∧
    (∀ s, Relation.ReflTransGen CStep cleanupExampleState s →
      s.mphase ≠ .done → ∃ t, CStep s t) ∧
    (∀ s t, CStep s t → cMeasure t < cMeasure s) ∧
    (∀ s, Relation.ReflTransGen CStep cleanupExampleState s →
      s.mphase = .done → CFinal s)) :=
  ⟨by unfold CleanupInit; decide,
    par_iter_failure_isolation 2 true cleanupExampleState (by unfold CleanupInit; decide)⟩
